import Mathlib

/-!
Shallow embedding of the roster engine (src/src/models.py and src/src/solver.py)
and verification of the frozen claims about it.

Python `datetime.date` values are modelled as (year, month, day) triples of
naturals with the proleptic Gregorian calendar; `date.weekday()` (Monday = 0)
is recomputed from the ordinal-day formula that the Python standard library
uses.  Python sets of dates become lists (only membership is ever used), and
the OR-Tools CP-SAT model is embedded as an explicit satisfaction predicate
over boolean assignments keyed exactly like the solver's variable dictionary:
by (employee name, date, shift).
-/

namespace Scheduler

/-- A calendar date, mirroring Python `datetime.date`. -/
structure Date where
  year : Nat
  month : Nat
  day : Nat
deriving DecidableEq, Repr

/-- Gregorian leap-year test. -/
def isLeap (y : Nat) : Bool :=
  (y % 4 == 0 && y % 100 != 0) || y % 400 == 0

/-- Number of days in a month of a given year. -/
def daysInMonth (y m : Nat) : Nat :=
  if m = 2 then (if isLeap y then 29 else 28)
  else if m = 4 ∨ m = 6 ∨ m = 9 ∨ m = 11 then 30
  else 31

/-- A structurally valid calendar date. -/
def Date.valid (d : Date) : Prop :=
  1 ≤ d.month ∧ d.month ≤ 12 ∧ 1 ≤ d.day ∧ d.day ≤ daysInMonth d.year d.month

instance (d : Date) : Decidable d.valid := by
  unfold Date.valid; infer_instance

/-- Days in all years strictly before year `y` (proleptic Gregorian), as in
CPython's `_days_before_year`. -/
def daysBeforeYear (y : Nat) : Nat :=
  365 * (y - 1) + (y - 1) / 4 - (y - 1) / 100 + (y - 1) / 400

/-- Days in the months of year `y` strictly before month `m`, as in CPython's
`_days_before_month`. -/
def daysBeforeMonth (y m : Nat) : Nat :=
  ((List.range (m - 1)).map (fun i => daysInMonth y (i + 1))).sum

/-- Proleptic Gregorian ordinal of a date (0001-01-01 is ordinal 1), as in
CPython's `_ymd2ord`. -/
def Date.toOrdinal (d : Date) : Nat :=
  daysBeforeYear d.year + daysBeforeMonth d.year d.month + d.day

/-- `date.weekday()`: Monday = 0 … Sunday = 6.  0001-01-01 was a Monday. -/
def Date.weekday (d : Date) : Nat :=
  (d.toOrdinal + 6) % 7

/-- Strict chronological order on dates (lexicographic on year, month, day);
this is exactly how Python compares `date` values. -/
def dlt (a b : Date) : Prop :=
  a.year < b.year ∨
    (a.year = b.year ∧
      (a.month < b.month ∨ (a.month = b.month ∧ a.day < b.day)))

instance (a b : Date) : Decidable (dlt a b) := by
  unfold dlt; infer_instance

/-- The next calendar day. -/
def Date.next (d : Date) : Date :=
  if d.day < daysInMonth d.year d.month then ⟨d.year, d.month, d.day + 1⟩
  else if d.month < 12 then ⟨d.year, d.month + 1, 1⟩
  else ⟨d.year + 1, 1, 1⟩

/-- Employee roles (`EmployeeType` in models.py). -/
inductive EmployeeType
  | STANDARD
  | NO_PM
  | WEEKEND_ONLY
deriving DecidableEq, Repr

/-- The closed shift enumeration (`Shift` in models.py). -/
inductive Shift
  | WEEKDAY_AM
  | WEEKDAY_PM
  | WEEKEND_AM
  | WEEKEND_PM
  | PH_AM
  | PH_PM
deriving DecidableEq, Repr

/-- `s.name` of the Python enum member. -/
def Shift.enumName : Shift → String
  | .WEEKDAY_AM => "WEEKDAY_AM"
  | .WEEKDAY_PM => "WEEKDAY_PM"
  | .WEEKEND_AM => "WEEKEND_AM"
  | .WEEKEND_PM => "WEEKEND_PM"
  | .PH_AM => "PH_AM"
  | .PH_PM => "PH_PM"

/-- An employee record (`Employee` in models.py); Python sets of dates are
modelled as lists, of which only membership is used. -/
structure Employee where
  name : String
  role : EmployeeType
  ytd_points : Nat
  blackouts : List Date
  ph_bids : List Date
  last_ph_date : Option Date
deriving DecidableEq, Repr

/-- `last_ph_date.replace(year=year+threshold)`, with the `except ValueError`
branch replacing the day by 28 when the shifted date does not exist; in
CPython, `replace` raises exactly when the day exceeds the length of the
(unchanged) month in the new year. -/
def immunityEndDate (lpd : Date) (years_threshold : Nat) : Date :=
  if lpd.day ≤ daysInMonth (lpd.year + years_threshold) lpd.month then
    ⟨lpd.year + years_threshold, lpd.month, lpd.day⟩
  else
    ⟨lpd.year + years_threshold, lpd.month, 28⟩

/-- `Employee.is_immune` from models.py. -/
def Employee.is_immune (e : Employee) (day : Date) (years_threshold : Nat) : Bool :=
  match e.last_ph_date with
  | none => false
  | some lpd => decide (dlt day (immunityEndDate lpd years_threshold))

/-- `Employee.can_work` from models.py, rule for rule and in the same order:
blackout, holiday immunity, weekend/weekday/holiday shift matching, then
role restrictions. -/
def Employee.can_work (e : Employee) (day : Date) (s : Shift)
    (is_public_holiday : Bool) : Bool :=
  if day ∈ e.blackouts then false
  else if is_public_holiday ∧ e.is_immune day 2 then false
  else
    let is_weekend : Bool := decide (day.weekday ≥ 5)
    if is_public_holiday ∧ s ∉ [Shift.PH_AM, Shift.PH_PM] then false
    else if ¬is_public_holiday ∧ is_weekend ∧
        s ∉ [Shift.WEEKEND_AM, Shift.WEEKEND_PM] then false
    else if ¬is_public_holiday ∧ ¬is_weekend ∧
        s ∈ [Shift.WEEKEND_AM, Shift.WEEKEND_PM] then false
    else if e.role = EmployeeType.NO_PM ∧
        s ∈ [Shift.WEEKDAY_PM, Shift.WEEKEND_PM, Shift.PH_PM] then false
    else if e.role = EmployeeType.WEEKEND_ONLY ∧ ¬is_weekend ∧
        ¬is_public_holiday then false
    else true

/-- The input of one `RosterSolver` invocation (solver.py constructor). -/
structure Input where
  employees : List Employee
  date_range : List Date
  public_holidays : List Date
deriving Repr

/-- A key of the solver's variable dictionary: (employee name, date, shift). -/
abbrev VarKey := String × Date × Shift

/-- `RosterSolver._get_shifts_for_day`: public holidays get the two PH
shifts, weekends the two weekend shifts, and weekdays only `WEEKDAY_PM`. -/
def getShiftsForDay (phs : List Date) (d : Date) : List Shift :=
  if d ∈ phs then [Shift.PH_AM, Shift.PH_PM]
  else if d.weekday ≥ 5 then [Shift.WEEKEND_AM, Shift.WEEKEND_PM]
  else [Shift.WEEKDAY_PM]

/-- `RosterSolver._create_variables`: the keys of `self.variables`, in
insertion order — for each date of the range, each shift of that day, each
employee passing `can_work`, one boolean variable. -/
def varKeys (inp : Input) : List VarKey :=
  inp.date_range.flatMap fun d =>
    (getShiftsForDay inp.public_holidays d).flatMap fun s =>
      (inp.employees.filter fun e =>
          e.can_work d s (decide (d ∈ inp.public_holidays))).map fun e =>
        (e.name, d, s)

/-- A solution of the CP-SAT model: a truth value for every variable key. -/
abbrev Assignment := VarKey → Bool

/-- The value of `sum(vars)` in a constraint, over a list of variable keys. -/
def boolSum (σ : Assignment) (ks : List VarKey) : Nat :=
  (ks.map fun k => if σ k then 1 else 0).sum

/-- The `relevant_switches` list of `_add_coverage_constraints` for one
(date, shift) slot: the per-employee probe of the variable dictionary. -/
def slotVars (inp : Input) (d : Date) (s : Shift) : List VarKey :=
  (inp.employees.filter fun e => (e.name, d, s) ∈ varKeys inp).map fun e =>
    (e.name, d, s)

/-- The `valid_bidder_vars` list of `_add_ph_bidding_constraints` for one
(date, shift) slot: bidders for the date whose variable exists. -/
def bidderVars (inp : Input) (d : Date) (s : Shift) : List VarKey :=
  ((inp.employees.filter fun e => d ∈ e.ph_bids).filter fun e =>
      (e.name, d, s) ∈ varKeys inp).map fun e => (e.name, d, s)

/-- The `shifts_today` list of `_add_one_shift_per_day_constraint` (also the
`tomorrow_switches` list of `_add_rest_constraints`) for one employee and
date. -/
def shiftsToday (inp : Input) (e : Employee) (d : Date) : List VarKey :=
  (getShiftsForDay inp.public_holidays d).filterMap fun s =>
    if (e.name, d, s) ∈ varKeys inp then some (e.name, d, s) else none

/-- The PM shift set iterated by `_add_rest_constraints`.  The Python code
iterates a set literal, whose order is unspecified; the order is harmless
because each day's classified shift set contains exactly one PM-class
shift, so at most one of the three probes can hit (`pm_unique_in_day`). -/
def pmShiftList : List Shift := [Shift.WEEKDAY_PM, Shift.WEEKEND_PM, Shift.PH_PM]

/-- The `today_pm_var` loop of `_add_rest_constraints`: the first PM-class
variable of the employee on the day, if any. -/
def todayPmVar (inp : Input) (e : Employee) (d : Date) : Option VarKey :=
  pmShiftList.findSome? fun s =>
    if (e.name, d, s) ∈ varKeys inp then some (e.name, d, s) else none

/-- The constraints added by `_add_coverage_constraints` (for slots with at
least one eligible employee; empty slots produce errors instead). -/
def coverageHold (inp : Input) (σ : Assignment) : Bool :=
  inp.date_range.all fun d =>
    (getShiftsForDay inp.public_holidays d).all fun s =>
      (slotVars inp d s).isEmpty || decide (boolSum σ (slotVars inp d s) = 1)

/-- The constraints added by `_add_ph_bidding_constraints`. -/
def biddingHold (inp : Input) (σ : Assignment) : Bool :=
  inp.date_range.all fun d =>
    !(decide (d ∈ inp.public_holidays)) ||
      (getShiftsForDay inp.public_holidays d).all fun s =>
        (bidderVars inp d s).isEmpty || decide (boolSum σ (bidderVars inp d s) = 1)

/-- The constraints added by `_add_one_shift_per_day_constraint`. -/
def oneShiftHold (inp : Input) (σ : Assignment) : Bool :=
  inp.employees.all fun e =>
    inp.date_range.all fun d =>
      (shiftsToday inp e d).isEmpty ||
        decide (boolSum σ (shiftsToday inp e d) ≤ 1)

/-- The constraints added by `_add_rest_constraints`: for each employee and
each consecutive position pair of the date range, if a PM variable exists
today and any variable exists tomorrow, PM today forbids everything
tomorrow.  The index pairs `(i, i+1)` of the Python loop are exactly the
entries of `zip date_range date_range.tail`. -/
def restHold (inp : Input) (σ : Assignment) : Bool :=
  inp.employees.all fun e =>
    (inp.date_range.zip inp.date_range.tail).all fun p =>
      match todayPmVar inp e p.1 with
      | none => true
      | some k =>
        (shiftsToday inp e p.2).isEmpty ||
          decide ((if σ k then 1 else 0) + boolSum σ (shiftsToday inp e p.2) ≤ 1)

/-- All boolean constraints of the CP-SAT model together. -/
def feasible (inp : Input) (σ : Assignment) : Bool :=
  coverageHold inp σ && restHold inp σ && biddingHold inp σ && oneShiftHold inp σ

/-- Zero-padded two-digit rendering, as in `strftime` fields `%m` and `%d`. -/
def pad2 (n : Nat) : String :=
  if n < 10 then "0" ++ toString n else toString n

/-- The date in %Y-%m-%d strftime format, for four-digit years. -/
def Date.iso (d : Date) : String :=
  toString d.year ++ "-" ++ pad2 d.month ++ "-" ++ pad2 d.day

/-- The per-slot error string built by `_add_coverage_constraints`. -/
def errMsg (d : Date) (s : Shift) : String :=
  "❌ Impossible to fill: " ++ d.iso ++ " (" ++ s.enumName ++
    "). Reason: Impossible to fill with current restrictions."

/-- The generic message returned when the Solving Service finds nothing. -/
def conflictMsg : String :=
  "⚠️ Logic Conflict: Constraints (Rest Rules or PH Bidding) are too tight to find a fair balance."

/-- All (date, shift) slots required by the classifier over the range, in
iteration order. -/
def requiredSlots (inp : Input) : List (Date × Shift) :=
  inp.date_range.flatMap fun d =>
    (getShiftsForDay inp.public_holidays d).map fun s => (d, s)

/-- `self.errors` after `_add_coverage_constraints`: one entry, in loop
order, for every required slot whose `relevant_switches` list is empty. -/
def coverageErrors (inp : Input) : List String :=
  inp.date_range.flatMap fun d =>
    (getShiftsForDay inp.public_holidays d).filterMap fun s =>
      if slotVars inp d s = [] then some (errMsg d s) else none

/-- The %A strftime field: the weekday name. -/
def dayName (d : Date) : String :=
  match d.weekday with
  | 0 => "Monday"
  | 1 => "Tuesday"
  | 2 => "Wednesday"
  | 3 => "Thursday"
  | 4 => "Friday"
  | 5 => "Saturday"
  | _ => "Sunday"

/-- One row of the roster table produced by `solve`. -/
structure RosterRow where
  date : Date
  day : String
  employee : String
  shift : String
deriving DecidableEq, Repr

/-- The variable keys whose solved value is 1, in dictionary order: the
source of the roster rows. -/
def rosterKeys (inp : Input) (σ : Assignment) : List VarKey :=
  (varKeys inp).filter fun k => σ k

/-- The roster extraction loop of `solve`. -/
def rosterRows (inp : Input) (σ : Assignment) : List RosterRow :=
  (rosterKeys inp σ).map fun k =>
    { date := k.2.1, day := dayName k.2.1, employee := k.1,
      shift := Shift.enumName k.2.2 }

/-- The `weights` dictionary of `_set_fairness_objective` (and the identical
one of the summary loop); `weights.get(s, 10)` is total because the
dictionary covers every shift. -/
def weightsLookup : Shift → Nat
  | .WEEKDAY_PM => 10
  | .WEEKDAY_AM => 10
  | .WEEKEND_AM => 15
  | .WEEKEND_PM => 15
  | .PH_AM => 15
  | .PH_PM => 15

/-- The weight `_set_fairness_objective` gives a variable:
`15 if d in self.public_holidays else weights.get(s, 10)`. -/
def varWeight (phs : List Date) (d : Date) (s : Shift) : Nat :=
  if d ∈ phs then 15 else weightsLookup s

/-- The point expression of one employee in `_set_fairness_objective`:
`ytd_points * 10` plus `var * weight` over all of that employee's
variables. -/
def employeeTotal (inp : Input) (σ : Assignment) (e : Employee) : Int :=
  (e.ytd_points : Int) * 10 +
    ((varKeys inp).map fun k =>
      if k.1 = e.name ∧ σ k then (varWeight inp.public_holidays k.2.1 k.2.2 : Int)
      else 0).sum

/-- The spec's wording of the shift weights (§4.4), by shift class alone:
weekday shifts weigh 10, weekend and holiday shifts weigh 15. -/
def specShiftWeight : Shift → Nat
  | .WEEKDAY_AM => 10
  | .WEEKDAY_PM => 10
  | _ => 15

/-- The spec's wording of an employee's point expression (§4.4):
`ytd_points * 10 + Σ(assignment_var * shift_weight)` over the employee's
variables, with the class weights of `specShiftWeight`. -/
def employeeTotalSpec (inp : Input) (σ : Assignment) (e : Employee) : Int :=
  (e.ytd_points : Int) * 10 +
    ((varKeys inp).map fun k =>
      if k.1 = e.name ∧ σ k then (specShiftWeight k.2.2 : Int) else 0).sum

/-- The fairness constraints of `_set_fairness_objective`: `max_pts` and
`min_pts` are integers bounded in [0, 100000], `max_pts` is at least and
`min_pts` at most every employee's point expression. -/
def fairnessOk (inp : Input) (σ : Assignment) (maxPts minPts : Int) : Prop :=
  0 ≤ maxPts ∧ maxPts ≤ 100000 ∧ 0 ≤ minPts ∧ minPts ≤ 100000 ∧
    ∀ e ∈ inp.employees,
      employeeTotal inp σ e ≤ maxPts ∧ minPts ≤ employeeTotal inp σ e

/-- The minimized objective: `max_pts - min_pts`. -/
def objectiveValue (maxPts minPts : Int) : Int := maxPts - minPts

/-- One row of the points summary table. -/
structure SummaryRow where
  employee : String
  startingPoints : Nat
  pointsEarned : ℚ
  totalPoints : ℚ
deriving DecidableEq, Repr

/-- The summary loop of `solve`: per employee, the dictionary weights of the
true-valued variables summed, divided by 10 (exact division — all weights
are multiples of 5, so the Python float arithmetic is exact here). -/
def summaryRows (inp : Input) (σ : Assignment) : List SummaryRow :=
  inp.employees.map fun e =>
    let newPoints : Nat :=
      (((varKeys inp).filter fun k => k.1 = e.name && σ k).map fun k =>
        weightsLookup k.2.2).sum
    { employee := e.name, startingPoints := e.ytd_points,
      pointsEarned := (newPoints : ℚ) / 10,
      totalPoints := (e.ytd_points : ℚ) + (newPoints : ℚ) / 10 }

/-- The outcome of the external CP-SAT `Solve` call (§6 of the spec): an
optimal or merely feasible assignment, or no assignment at all. -/
inductive SolverStatus
  | OPTIMAL (σ : Assignment)
  | FEASIBLE (σ : Assignment)
  | INFEASIBLE
  | TIMEOUT

/-- The contract of the Solving Service: an assignment it returns satisfies
every constraint of the model it was given. -/
def StatusOk (inp : Input) : SolverStatus → Prop
  | .OPTIMAL σ => feasible inp σ = true
  | .FEASIBLE σ => feasible inp σ = true
  | _ => True

/-- The triple returned by `RosterSolver.solve`. -/
structure SolveOutput where
  roster : Option (List RosterRow)
  summary : Option (List SummaryRow)
  errors : List String

/-- `RosterSolver.solve`, with the external `Solve` call abstracted by the
`st` argument: build the variables and the coverage constraints; if any
coverage error was recorded, return it without ever invoking the solver;
otherwise return the projected roster and summary on OPTIMAL or FEASIBLE,
and the generic conflict message otherwise. -/
def solve (inp : Input) (st : SolverStatus) : SolveOutput :=
  if coverageErrors inp ≠ [] then ⟨none, none, coverageErrors inp⟩
  else
    match st with
    | .OPTIMAL σ => ⟨some (rosterRows inp σ), some (summaryRows inp σ), []⟩
    | .FEASIBLE σ => ⟨some (rosterRows inp σ), some (summaryRows inp σ), []⟩
    | _ => ⟨none, none, [conflictMsg]⟩

/-! ### Concrete inputs used to evaluate the model on small instances.
2026-01-01 is a Thursday, 2026-01-05 a Monday, 2026-01-06 a Tuesday. -/

def jan1 : Date := ⟨2026, 1, 1⟩

def jan5 : Date := ⟨2026, 1, 5⟩

def jan6 : Date := ⟨2026, 1, 6⟩

/-- A standard employee who bid for the 2026-01-01 holiday. -/
def empA : Employee := ⟨"A", EmployeeType.STANDARD, 0, [], [jan1], none⟩

/-- The same bidder, but blacked out on the holiday itself. -/
def empAblk : Employee := ⟨"A", EmployeeType.STANDARD, 0, [jan1], [jan1], none⟩

def empB : Employee := ⟨"B", EmployeeType.STANDARD, 0, [], [], none⟩

def empC : Employee := ⟨"C", EmployeeType.STANDARD, 0, [], [], none⟩

/-- The single-bidder holiday scenario of §8 of the spec: one holiday date,
one (eligible, non-immune, non-blacked-out) bidder, one other employee. -/
def cx2 : Input := ⟨[empA, empB], [jan1], [jan1]⟩

/-- A holiday slot whose only bidder is blacked out. -/
def cx1 : Input := ⟨[empAblk, empB, empC], [jan1], [jan1]⟩

/-- A feasible solution of `cx1`: B takes PH AM, C takes PH PM. -/
def sigma1 : Assignment := fun k =>
  decide (k = ("B", jan1, Shift.PH_AM) ∨ k = ("C", jan1, Shift.PH_PM))

/-- A second standard bidder for the 2026-01-01 holiday. -/
def empD : Employee := ⟨"D", EmployeeType.STANDARD, 0, [], [jan1], none⟩

/-- A holiday slot with two eligible bidders — here bidding is satisfiable. -/
def cxW : Input := ⟨[empA, empD], [jan1], [jan1]⟩

/-- A feasible solution of `cxW`: A takes PH AM, D takes PH PM. -/
def sigmaW : Assignment := fun k =>
  decide (k = ("A", jan1, Shift.PH_AM) ∨ k = ("D", jan1, Shift.PH_PM))

/-- One employee, blacked out on the only (weekday) date of the range. -/
def cx5 : Input := ⟨[⟨"A", EmployeeType.STANDARD, 0, [jan5], [], none⟩], [jan5], []⟩

/-- Two standard employees over two consecutive weekdays, no holidays. -/
def cx7 : Input := ⟨[empB, empC], [jan5, jan6], []⟩

/-- A feasible solution of `cx7`: B works Monday evening, C Tuesday evening. -/
def sigma7 : Assignment := fun k =>
  decide (k = ("B", jan5, Shift.WEEKDAY_PM) ∨ k = ("C", jan6, Shift.WEEKDAY_PM))

/-! ### Helper lemmas about the variable set and the shift classifier -/

lemma mem_varKeys {inp : Input} {n : String} {d : Date} {s : Shift} :
    (n, d, s) ∈ varKeys inp ↔
      d ∈ inp.date_range ∧ s ∈ getShiftsForDay inp.public_holidays d ∧
        ∃ e ∈ inp.employees, e.name = n ∧
          e.can_work d s (decide (d ∈ inp.public_holidays)) = true := by
  simp only [varKeys, List.mem_flatMap, List.mem_map, List.mem_filter,
    Prod.mk.injEq]
  constructor
  · rintro ⟨d', hd', s', hs', e, ⟨he, hcan⟩, hn, rfl, rfl⟩
    exact ⟨hd', hs', e, he, hn, hcan⟩
  · rintro ⟨hd, hs, e, he, hn, hcan⟩
    exact ⟨d, hd, s, hs, e, ⟨he, hcan⟩, hn, rfl, rfl⟩

lemma date_mem_of_varKeys {inp : Input} {n : String} {d : Date} {s : Shift}
    (h : (n, d, s) ∈ varKeys inp) : d ∈ inp.date_range :=
  (mem_varKeys.mp h).1

lemma shift_mem_of_varKeys {inp : Input} {n : String} {d : Date} {s : Shift}
    (h : (n, d, s) ∈ varKeys inp) :
    s ∈ getShiftsForDay inp.public_holidays d :=
  (mem_varKeys.mp h).2.1

lemma getShiftsForDay_nodup (phs : List Date) (d : Date) :
    (getShiftsForDay phs d).Nodup := by
  unfold getShiftsForDay
  split
  · decide
  · split <;> decide

lemma pm_unique_in_day {phs : List Date} {d : Date} {s t : Shift}
    (hs : s ∈ getShiftsForDay phs d) (ht : t ∈ getShiftsForDay phs d)
    (hps : s ∈ pmShiftList) (hpt : t ∈ pmShiftList) : s = t := by
  by_cases hph : d ∈ phs
  · rw [getShiftsForDay, if_pos hph] at hs ht
    simp only [List.mem_cons, List.not_mem_nil, or_false] at hs ht
    rcases hs with rfl | rfl <;> rcases ht with rfl | rfl <;>
      simp_all [pmShiftList]
  · by_cases hw : d.weekday ≥ 5
    · rw [getShiftsForDay, if_neg hph, if_pos hw] at hs ht
      simp only [List.mem_cons, List.not_mem_nil, or_false] at hs ht
      rcases hs with rfl | rfl <;> rcases ht with rfl | rfl <;>
        simp_all [pmShiftList]
    · rw [getShiftsForDay, if_neg hph, if_neg hw] at hs ht
      simp only [List.mem_cons, List.not_mem_nil, or_false] at hs ht
      rw [hs, ht]

lemma boolSum_eq_countP (σ : Assignment) (ks : List VarKey) :
    boolSum σ ks = ks.countP fun k => σ k := by
  induction ks with
  | nil => rfl
  | cons a t ih =>
    simp only [boolSum, List.map_cons, List.sum_cons, List.countP_cons] at *
    rw [ih]
    by_cases h : σ a = true
    · simp [h, Nat.add_comm]
    · simp [Bool.eq_false_iff.mpr h, h]

lemma boolSum_eq_zero {σ : Assignment} {ks : List VarKey}
    (h : boolSum σ ks = 0) : ∀ k ∈ ks, σ k = false := by
  rw [boolSum_eq_countP] at h
  intro k hk
  have := List.countP_eq_zero.mp h k hk
  simpa using this

lemma exists_true_of_boolSum_eq_one {σ : Assignment} {ks : List VarKey}
    (h : boolSum σ ks = 1) : ∃ k ∈ ks, σ k = true := by
  rw [boolSum_eq_countP] at h
  have : 0 < ks.countP fun k => σ k := by omega
  obtain ⟨k, hk, hp⟩ := List.countP_pos_iff.mp this
  exact ⟨k, hk, hp⟩

lemma countP_two_le {α : Type} {l : List α} {a b : α} {p : α → Bool}
    (hnd : l.Nodup) (ha : a ∈ l) (hb : b ∈ l) (hab : a ≠ b)
    (hpa : p a = true) (hpb : p b = true) : 2 ≤ l.countP p := by
  induction l with
  | nil => cases ha
  | cons x t ih =>
    rw [List.countP_cons]
    by_cases hax : a = x
    · have hbt : b ∈ t := by
        rcases List.mem_cons.mp hb with rfl | h
        · exact absurd hax hab
        · exact h
      have h1 : 1 ≤ t.countP p := List.countP_pos_iff.mpr ⟨b, hbt, hpb⟩
      have h2 : (if p x then 1 else 0) = 1 := by rw [← hax, hpa]; rfl
      omega
    · by_cases hbx : b = x
      · have hat : a ∈ t := by
          rcases List.mem_cons.mp ha with h | h
          · exact absurd h hax
          · exact h
        have h1 : 1 ≤ t.countP p := List.countP_pos_iff.mpr ⟨a, hat, hpa⟩
        have h2 : (if p x then 1 else 0) = 1 := by rw [← hbx, hpb]; rfl
        omega
      · have ha' : a ∈ t := by
          rcases List.mem_cons.mp ha with h | h
          · exact absurd h hax
          · exact h
        have hb' : b ∈ t := by
          rcases List.mem_cons.mp hb with h | h
          · exact absurd h hbx
          · exact h
        have := ih (List.Nodup.of_cons hnd) ha' hb'
        omega

/-! ### Date-order lemmas: `Date.next` is the immediate successor of a valid
date in chronological order -/

lemma dlt_next {d : Date} (hv : d.valid) : dlt d d.next := by
  obtain ⟨h1, h2, h3, h4⟩ := hv
  unfold Date.next dlt
  by_cases hd : d.day < daysInMonth d.year d.month
  · rw [if_pos hd]; right; exact ⟨rfl, Or.inr ⟨rfl, Nat.lt_succ_self d.day⟩⟩
  · rw [if_neg hd]
    by_cases hm : d.month < 12
    · rw [if_pos hm]; right; exact ⟨rfl, Or.inl (Nat.lt_succ_self d.month)⟩
    · rw [if_neg hm]; left; exact Nat.lt_succ_self d.year

lemma next_minimal {a b : Date} (hva : a.valid) (hvb : b.valid)
    (hab : dlt a b) (hbn : dlt b a.next) : False := by
  obtain ⟨ha1, ha2, ha3, ha4⟩ := hva
  obtain ⟨hb1, hb2, hb3, hb4⟩ := hvb
  unfold Date.next at hbn
  by_cases hd : a.day < daysInMonth a.year a.month
  · rw [if_pos hd] at hbn
    unfold dlt at hab hbn
    dsimp only at hab hbn
    omega
  · rw [if_neg hd] at hbn
    by_cases hm : a.month < 12
    · rw [if_pos hm] at hbn
      unfold dlt at hab hbn
      dsimp only at hab hbn
      rcases hab with h | ⟨hy, h⟩
      · omega
      · rcases h with h | ⟨hmm, hdd⟩
        · omega
        · have : daysInMonth b.year b.month = daysInMonth a.year a.month := by
            rw [hy, hmm]
          omega
    · rw [if_neg hm] at hbn
      unfold dlt at hab hbn
      dsimp only at hbn
      rcases hab with h | ⟨hy, h⟩
      · omega
      · rcases h with h | ⟨hmm, hdd⟩
        · omega
        · have : daysInMonth b.year b.month = daysInMonth a.year a.month := by
            rw [hy, hmm]
          omega

lemma dlt_irrefl {d : Date} (h : dlt d d) : False := by
  unfold dlt at h; omega

lemma dlt_trans {a b c : Date} (h1 : dlt a b) (h2 : dlt b c) : dlt a c := by
  unfold dlt at *; omega

/-- In a strictly sorted list of valid dates, a date and its calendar
successor that both occur in the list occur at consecutive positions. -/
lemma zip_consecutive {l : List Date} (hs : l.Pairwise dlt)
    (hv : ∀ x ∈ l, x.valid) {d : Date} (hd : d ∈ l) (hn : d.next ∈ l) :
    (d, d.next) ∈ l.zip l.tail := by
  induction l with
  | nil => cases hd
  | cons a t ih =>
    rcases List.mem_cons.mp hd with rfl | hdt
    · have hvd : d.valid := hv d (List.mem_cons_self ..)
      have hne : d.next ≠ d := by
        intro h
        exact dlt_irrefl (h ▸ dlt_next hvd)
      have hnt : d.next ∈ t := by
        rcases List.mem_cons.mp hn with h | h
        · exact absurd h hne
        · exact h
      cases t with
      | nil => cases hnt
      | cons b t2 =>
        rcases List.mem_cons.mp hnt with hb | hbt
        · rw [← hb]
          exact List.mem_cons_self ..
        · exfalso
          have hdb : dlt d b := (List.pairwise_cons.mp hs).1 b (List.mem_cons_self ..)
          have hbn : dlt b d.next :=
            (List.pairwise_cons.mp (List.pairwise_cons.mp hs).2).1 d.next hbt
          exact next_minimal hvd (hv b (by simp)) hdb hbn
    · have hnt : d.next ∈ t := by
        rcases List.mem_cons.mp hn with h | h
        · exfalso
          have had : dlt a d := (List.pairwise_cons.mp hs).1 d hdt
          have hdn : dlt d d.next := dlt_next (hv d (by simp [hdt]))
          rw [h] at hdn
          exact dlt_irrefl (dlt_trans had hdn)
        · exact h
      cases t with
      | nil => cases hdt
      | cons b t2 =>
        have hm := ih (List.pairwise_cons.mp hs).2
          (fun x hx => hv x (by simp [hx])) hdt hnt
        exact List.mem_cons_of_mem _ hm


lemma feasible_parts {inp : Input} {σ : Assignment}
    (h : feasible inp σ = true) :
    coverageHold inp σ = true ∧ restHold inp σ = true ∧
      biddingHold inp σ = true ∧ oneShiftHold inp σ = true := by
  simp only [feasible, Bool.and_eq_true] at h
  exact ⟨h.1.1.1, h.1.1.2, h.1.2, h.2⟩

lemma coverage_slot {inp : Input} {σ : Assignment}
    (h : coverageHold inp σ = true) {d : Date} {s : Shift}
    (hd : d ∈ inp.date_range) (hs : s ∈ getShiftsForDay inp.public_holidays d)
    (hne : slotVars inp d s ≠ []) : boolSum σ (slotVars inp d s) = 1 := by
  have h1 := List.all_eq_true.mp h d hd
  have h2 := List.all_eq_true.mp h1 s hs
  rcases Bool.or_eq_true_iff.mp h2 with h3 | h3
  · exact absurd (List.isEmpty_iff.mp h3) hne
  · exact of_decide_eq_true h3

lemma bidding_slot {inp : Input} {σ : Assignment}
    (h : biddingHold inp σ = true) {d : Date} {s : Shift}
    (hd : d ∈ inp.date_range) (hph : d ∈ inp.public_holidays)
    (hs : s ∈ getShiftsForDay inp.public_holidays d)
    (hne : bidderVars inp d s ≠ []) : boolSum σ (bidderVars inp d s) = 1 := by
  have h1 := List.all_eq_true.mp h d hd
  rcases Bool.or_eq_true_iff.mp h1 with h2 | h2
  · rw [Bool.not_eq_eq_eq_not] at h2
    exact absurd hph (of_decide_eq_false (by simpa using h2))
  · have h3 := List.all_eq_true.mp h2 s hs
    rcases Bool.or_eq_true_iff.mp h3 with h4 | h4
    · exact absurd (List.isEmpty_iff.mp h4) hne
    · exact of_decide_eq_true h4

lemma oneShift_slot {inp : Input} {σ : Assignment}
    (h : oneShiftHold inp σ = true) {e : Employee} {d : Date}
    (he : e ∈ inp.employees) (hd : d ∈ inp.date_range) :
    boolSum σ (shiftsToday inp e d) ≤ 1 := by
  have h1 := List.all_eq_true.mp h e he
  have h2 := List.all_eq_true.mp h1 d hd
  rcases Bool.or_eq_true_iff.mp h2 with h3 | h3
  · rw [List.isEmpty_iff.mp h3]
    simp [boolSum]
  · exact of_decide_eq_true h3

lemma rest_pair {inp : Input} {σ : Assignment}
    (h : restHold inp σ = true) {e : Employee}
    (he : e ∈ inp.employees) {today tomorrow : Date}
    (hp : (today, tomorrow) ∈ inp.date_range.zip inp.date_range.tail)
    {k : VarKey} (hk : todayPmVar inp e today = some k)
    (hne : shiftsToday inp e tomorrow ≠ []) :
    (if σ k then 1 else 0) + boolSum σ (shiftsToday inp e tomorrow) ≤ 1 := by
  have h1 := List.all_eq_true.mp h e he
  have h2 := List.all_eq_true.mp h1 (today, tomorrow) hp
  rw [hk] at h2
  rcases Bool.or_eq_true_iff.mp h2 with h3 | h3
  · exact absurd (List.isEmpty_iff.mp h3) hne
  · exact of_decide_eq_true h3

lemma mem_shiftsToday {inp : Input} {e : Employee} {d : Date} {s : Shift}
    (hk : (e.name, d, s) ∈ varKeys inp) :
    (e.name, d, s) ∈ shiftsToday inp e d := by
  unfold shiftsToday
  rw [List.mem_filterMap]
  exact ⟨s, shift_mem_of_varKeys hk, by rw [if_pos hk]⟩

lemma todayPmVar_eq {inp : Input} {e : Employee} {d : Date} {s : Shift}
    (hk : (e.name, d, s) ∈ varKeys inp) (hpm : s ∈ pmShiftList) :
    todayPmVar inp e d = some (e.name, d, s) := by
  have huniq : ∀ t, t ∈ pmShiftList → (e.name, d, t) ∈ varKeys inp → t = s := by
    intro t ht hkt
    exact pm_unique_in_day (shift_mem_of_varKeys hkt) (shift_mem_of_varKeys hk) ht hpm
  rcases List.mem_cons.mp hpm with h | h
  · subst h
    have h1 : (e.name, d, Shift.WEEKDAY_PM) ∈ varKeys inp := hk
    simp [todayPmVar, pmShiftList, List.findSome?_cons, h1]
  · rcases List.mem_cons.mp h with h | h
    · subst h
      have h1 : (e.name, d, Shift.WEEKDAY_PM) ∉ varKeys inp := by
        intro hc
        exact absurd (huniq Shift.WEEKDAY_PM (by simp [pmShiftList]) hc) (by decide)
      simp [todayPmVar, pmShiftList, List.findSome?_cons, h1, hk]
    · rcases List.mem_cons.mp h with h | h
      · subst h
        have h1 : (e.name, d, Shift.WEEKDAY_PM) ∉ varKeys inp := by
          intro hc
          exact absurd (huniq Shift.WEEKDAY_PM (by simp [pmShiftList]) hc) (by decide)
        have h2 : (e.name, d, Shift.WEEKEND_PM) ∉ varKeys inp := by
          intro hc
          exact absurd (huniq Shift.WEEKEND_PM (by simp [pmShiftList]) hc) (by decide)
        simp [todayPmVar, pmShiftList, List.findSome?_cons, h1, h2, hk]
      · cases h


/-! ### Counting lemmas relating the variable list, the per-slot variable
lists and the roster -/

lemma countP_flatMap {α β : Type} (l : List α) (f : α → List β) (p : β → Bool) :
    (l.flatMap f).countP p = (l.map fun a => (f a).countP p).sum := by
  induction l with
  | nil => rfl
  | cons a t ih => simp [List.flatMap_cons, List.countP_append, ih]

lemma sum_single {α : Type} {l : List α} {a : α}
    (hnd : l.Nodup) (ha : a ∈ l) (g : α → Nat)
    (h0 : ∀ b ∈ l, b ≠ a → g b = 0) : (l.map g).sum = g a := by
  induction l with
  | nil => cases ha
  | cons x t ih =>
    simp only [List.map_cons, List.sum_cons]
    rcases List.mem_cons.mp ha with rfl | hat
    · have hz : (t.map g).sum = 0 := List.sum_eq_zero (by
        intro v hv
        obtain ⟨b, hb, rfl⟩ := List.mem_map.mp hv
        exact h0 b (List.mem_cons_of_mem _ hb)
          (fun hba => (List.nodup_cons.mp hnd).1 (hba ▸ hb)))
      omega
    · have hx : g x = 0 := h0 x (List.mem_cons_self ..)
        (fun hxa => (List.nodup_cons.mp hnd).1 (hxa ▸ hat))
      have ht := ih (List.nodup_cons.mp hnd).2 hat
        (fun b hb hba => h0 b (List.mem_cons_of_mem _ hb) hba)
      omega

lemma name_inj {inp : Input}
    (hnames : (inp.employees.map Employee.name).Nodup)
    {e1 e2 : Employee} (h1 : e1 ∈ inp.employees) (h2 : e2 ∈ inp.employees)
    (hn : e1.name = e2.name) : e1 = e2 :=
  List.inj_on_of_nodup_map hnames h1 h2 hn

lemma mem_varKeys_iff_can_work {inp : Input}
    (hnames : (inp.employees.map Employee.name).Nodup)
    {e : Employee} (he : e ∈ inp.employees) {d : Date} {s : Shift}
    (hd : d ∈ inp.date_range)
    (hs : s ∈ getShiftsForDay inp.public_holidays d) :
    ((e.name, d, s) ∈ varKeys inp) ↔
      e.can_work d s (decide (d ∈ inp.public_holidays)) = true := by
  rw [mem_varKeys]
  constructor
  · rintro ⟨-, -, e2, he2, hn, hcan⟩
    rwa [name_inj hnames he2 he hn] at hcan
  · intro h
    exact ⟨hd, hs, e, he, rfl, h⟩

lemma slotVars_eq {inp : Input}
    (hnames : (inp.employees.map Employee.name).Nodup) {d : Date} {s : Shift}
    (hd : d ∈ inp.date_range)
    (hs : s ∈ getShiftsForDay inp.public_holidays d) :
    slotVars inp d s =
      (inp.employees.filter fun e =>
          e.can_work d s (decide (d ∈ inp.public_holidays))).map fun e =>
        (e.name, d, s) := by
  unfold slotVars
  congr 1
  refine List.filter_congr ?_
  intro e he
  have hiff := mem_varKeys_iff_can_work hnames he hd hs
  cases hcw : e.can_work d s (decide (d ∈ inp.public_holidays)) with
  | true => exact decide_eq_true (hiff.mpr hcw)
  | false =>
    refine decide_eq_false fun hp => ?_
    rw [hcw] at hiff
    exact Bool.false_ne_true (hiff.mp hp)

lemma slotVars_fields {inp : Input} {d : Date} {s : Shift} {k : VarKey}
    (hk : k ∈ slotVars inp d s) : k.2.1 = d ∧ k.2.2 = s ∧ k ∈ varKeys inp := by
  unfold slotVars at hk
  obtain ⟨e, he, rfl⟩ := List.mem_map.mp hk
  exact ⟨rfl, rfl, of_decide_eq_true (List.mem_filter.mp he).2⟩

lemma mem_slotVars_of_varKeys {inp : Input} {n : String} {d : Date} {s : Shift}
    (hk : (n, d, s) ∈ varKeys inp) : (n, d, s) ∈ slotVars inp d s := by
  obtain ⟨hd, hs, e, he, hname, hcan⟩ := mem_varKeys.mp hk
  unfold slotVars
  refine List.mem_map.mpr ⟨e, List.mem_filter.mpr ⟨he, decide_eq_true ?_⟩, by rw [hname]⟩
  rw [hname]
  exact hk

lemma slotVars_nodup {inp : Input}
    (hnames : (inp.employees.map Employee.name).Nodup) (d : Date) (s : Shift) :
    (slotVars inp d s).Nodup := by
  unfold slotVars
  refine List.Nodup.map_on ?_ (List.Nodup.filter _ (List.Nodup.of_map _ hnames))
  intro x hx y hy hxy
  have hx2 := (List.mem_filter.mp hx).1
  have hy2 := (List.mem_filter.mp hy).1
  have hn : x.name = y.name := by
    have := congrArg Prod.fst hxy
    simpa using this
  exact name_inj hnames hx2 hy2 hn

lemma countP_varKeys_slot {inp : Input}
    (hnames : (inp.employees.map Employee.name).Nodup)
    (hrange : inp.date_range.Nodup) {d : Date} {s : Shift}
    (hd : d ∈ inp.date_range)
    (hs : s ∈ getShiftsForDay inp.public_holidays d) (σ : Assignment) :
    (varKeys inp).countP
        (fun k => σ k && (decide (k.2.1 = d) && decide (k.2.2 = s)))
      = boolSum σ (slotVars inp d s) := by
  have hzero_d : ∀ d' ∈ inp.date_range, d' ≠ d →
      ((getShiftsForDay inp.public_holidays d').flatMap fun s' =>
        (inp.employees.filter fun e =>
            e.can_work d' s' (decide (d' ∈ inp.public_holidays))).map fun e =>
          (e.name, d', s')).countP
        (fun k => σ k && (decide (k.2.1 = d) && decide (k.2.2 = s))) = 0 := by
    intro d' hd' hne
    rw [List.countP_eq_zero]
    intro k hk
    obtain ⟨s', hs', hk2⟩ := List.mem_flatMap.mp hk
    obtain ⟨e, he, rfl⟩ := List.mem_map.mp hk2
    simp only [Bool.and_eq_true, decide_eq_true_eq]
    rintro ⟨-, h2, -⟩
    exact hne h2
  have hzero_s : ∀ s' ∈ getShiftsForDay inp.public_holidays d, s' ≠ s →
      ((inp.employees.filter fun e =>
          e.can_work d s' (decide (d ∈ inp.public_holidays))).map fun e =>
        (e.name, d, s')).countP
        (fun k => σ k && (decide (k.2.1 = d) && decide (k.2.2 = s))) = 0 := by
    intro s' hs' hne
    rw [List.countP_eq_zero]
    intro k hk
    obtain ⟨e, he, rfl⟩ := List.mem_map.mp hk
    simp only [Bool.and_eq_true, decide_eq_true_eq]
    rintro ⟨-, -, h3⟩
    exact hne h3
  calc (varKeys inp).countP
        (fun k => σ k && (decide (k.2.1 = d) && decide (k.2.2 = s)))
      = (inp.date_range.map fun d' =>
          ((getShiftsForDay inp.public_holidays d').flatMap fun s' =>
            (inp.employees.filter fun e =>
                e.can_work d' s' (decide (d' ∈ inp.public_holidays))).map fun e =>
              (e.name, d', s')).countP
            (fun k => σ k && (decide (k.2.1 = d) && decide (k.2.2 = s)))).sum := by
        unfold varKeys
        rw [countP_flatMap]
    _ = ((getShiftsForDay inp.public_holidays d).flatMap fun s' =>
          (inp.employees.filter fun e =>
              e.can_work d s' (decide (d ∈ inp.public_holidays))).map fun e =>
            (e.name, d, s')).countP
          (fun k => σ k && (decide (k.2.1 = d) && decide (k.2.2 = s))) :=
        sum_single hrange hd _ hzero_d
    _ = ((getShiftsForDay inp.public_holidays d).map fun s' =>
          ((inp.employees.filter fun e =>
              e.can_work d s' (decide (d ∈ inp.public_holidays))).map fun e =>
            (e.name, d, s')).countP
            (fun k => σ k && (decide (k.2.1 = d) && decide (k.2.2 = s)))).sum := by
        rw [countP_flatMap]
    _ = ((inp.employees.filter fun e =>
            e.can_work d s (decide (d ∈ inp.public_holidays))).map fun e =>
          (e.name, d, s)).countP
          (fun k => σ k && (decide (k.2.1 = d) && decide (k.2.2 = s))) :=
        sum_single (getShiftsForDay_nodup _ _) hs _ hzero_s
    _ = boolSum σ (slotVars inp d s) := by
        rw [boolSum_eq_countP, slotVars_eq hnames hd hs, List.countP_map,
          List.countP_map]
        refine List.countP_congr ?_
        intro e he
        simp [Function.comp]


/-! ### Structure of `solve` outcomes -/

lemma solve_success {inp : Input} {st : SolverStatus} {r : List RosterRow}
    (hr : (solve inp st).roster = some r) :
    coverageErrors inp = [] ∧ (solve inp st).errors = [] ∧
      ∃ σ, (st = SolverStatus.OPTIMAL σ ∨ st = SolverStatus.FEASIBLE σ) ∧
        r = rosterRows inp σ := by
  by_cases h : coverageErrors inp = []
  · unfold solve at hr ⊢
    rw [if_neg (fun hc => hc h)] at hr ⊢
    cases st with
    | OPTIMAL σ =>
      refine ⟨h, rfl, σ, Or.inl rfl, ?_⟩
      simpa using hr.symm
    | FEASIBLE σ =>
      refine ⟨h, rfl, σ, Or.inr rfl, ?_⟩
      simpa using hr.symm
    | INFEASIBLE => cases hr
    | TIMEOUT => cases hr
  · unfold solve at hr
    rw [if_pos h] at hr
    cases hr

lemma coverageErrors_nil_iff {inp : Input} :
    coverageErrors inp = [] ↔
      ∀ d ∈ inp.date_range, ∀ s ∈ getShiftsForDay inp.public_holidays d,
        slotVars inp d s ≠ [] := by
  unfold coverageErrors
  rw [List.flatMap_eq_nil_iff]
  constructor
  · intro h d hd s hs hslot
    have h2 := List.filterMap_eq_nil_iff.mp (h d hd) s hs
    rw [if_pos hslot] at h2
    cases h2
  · intro h d hd
    rw [List.filterMap_eq_nil_iff]
    intro s hs
    rw [if_neg (h d hd s hs)]

lemma rosterKeys_sub {inp : Input} {σ : Assignment} {k : VarKey}
    (hk : k ∈ rosterKeys inp σ) : k ∈ varKeys inp ∧ σ k = true := by
  unfold rosterKeys at hk
  have := List.mem_filter.mp hk
  exact ⟨this.1, this.2⟩

lemma mem_rosterKeys {inp : Input} {σ : Assignment} {k : VarKey}
    (hk : k ∈ varKeys inp) (hσ : σ k = true) : k ∈ rosterKeys inp σ := by
  unfold rosterKeys
  exact List.mem_filter.mpr ⟨hk, hσ⟩


/-! ### Claim theorems -/

/-- C3 counterexample: the claim says `can_work` rejects every pairing of a
holiday-class shift with a non-holiday date, but on the non-holiday weekday
2026-01-05 (a Monday, weekday index 0) a standard employee passes
`can_work` for the holiday shift `PH_AM`. -/
theorem C3_counterexample :
    Employee.can_work ⟨"Alice", EmployeeType.STANDARD, 0, [], [], none⟩
        ⟨2026, 1, 5⟩ Shift.PH_AM false = true ∧
      Date.weekday ⟨2026, 1, 5⟩ = 0 := by
  constructor
  · decide
  · decide

/-- C3 (amended): the day/shift class match of `can_work` is exact except in
one direction — a holiday date admits only holiday shifts, a non-holiday
weekend date admits only weekend shifts, and a non-holiday weekday rejects
weekend shifts, but a holiday-class shift on a non-holiday weekday is NOT
rejected by `can_work` (it is excluded by the model builder's per-day shift
set instead). -/
theorem C3_class_match (e : Employee) (d : Date) (s : Shift) :
    (e.can_work d s true = true → s ∈ [Shift.PH_AM, Shift.PH_PM]) ∧
      (d.weekday ≥ 5 → e.can_work d s false = true →
        s ∈ [Shift.WEEKEND_AM, Shift.WEEKEND_PM]) ∧
      (d.weekday < 5 → e.can_work d s false = true →
        s ∉ [Shift.WEEKEND_AM, Shift.WEEKEND_PM]) := by
  refine ⟨fun h => ?_, fun hw h => ?_, fun hw h hmem => ?_⟩
  · unfold Employee.can_work at h
    dsimp only at h
    split_ifs at h with h1 h2 h3 h4 h5 h6 h7
    simp at h3 ⊢
    tauto
  · unfold Employee.can_work at h
    dsimp only at h
    split_ifs at h with h1 h2 h3 h4 h5 h6 h7
    simp only [not_false_eq_true, true_and, decide_eq_true_eq, not_and,
      not_not] at h4
    exact h4 hw
  · unfold Employee.can_work at h
    dsimp only at h
    split_ifs at h with h1 h2 h3 h4 h5 h6 h7
    simp only [not_false_eq_true, true_and, decide_eq_true_eq, not_and] at h5
    exact h5 (by omega) hmem


/-- C3 witness: evaluating the amended class-match theorem on a holiday
assignment of a concrete employee. -/
theorem C3_class_match_witness : Shift.PH_AM ∈ [Shift.PH_AM, Shift.PH_PM] :=
  (C3_class_match empB jan1 Shift.PH_AM).1 (by decide)

/-- C4 counterexample: the claim says the classifier is configurable and
that under the split scheme a non-holiday weekday maps to both weekday
shifts; but `_get_shifts_for_day` takes no scheme parameter and maps the
non-holiday weekday 2026-01-05 to the single shift `WEEKDAY_PM` — no
morning weekday shift is ever required. -/
theorem C4_counterexample :
    getShiftsForDay [] ⟨2026, 1, 5⟩ = [Shift.WEEKDAY_PM] ∧
      Shift.WEEKDAY_AM ∉ getShiftsForDay [] ⟨2026, 1, 5⟩ := by
  constructor
  · decide
  · decide

/-- C4 (amended): the classifier is one fixed, parameterless mapping:
`WEEKDAY_AM` is in no date's shift set, and a non-holiday weekday maps to
exactly `[WEEKDAY_PM]`. -/
theorem C4_fixed_scheme (phs : List Date) (d : Date) :
    Shift.WEEKDAY_AM ∉ getShiftsForDay phs d ∧
      (d ∉ phs → d.weekday < 5 → getShiftsForDay phs d = [Shift.WEEKDAY_PM]) := by
  unfold getShiftsForDay
  by_cases h1 : d ∈ phs
  · rw [if_pos h1]
    exact ⟨by decide, fun h => absurd h1 h⟩
  · rw [if_neg h1]
    by_cases h2 : d.weekday ≥ 5
    · rw [if_pos h2]
      exact ⟨by decide, fun _ hlt => absurd h2 (by omega)⟩
    · rw [if_neg h2]
      exact ⟨by decide, fun _ _ => rfl⟩

/-- C4 witness: the amended theorem evaluated on the non-holiday Tuesday
2026-01-06. -/
theorem C4_fixed_scheme_witness :
    getShiftsForDay [] jan6 = [Shift.WEEKDAY_PM] :=
  (C4_fixed_scheme [] jan6).2 (by decide) (by decide)

lemma daysInMonth_irrel {y z m : Nat} (hm : m ≠ 2) :
    daysInMonth y m = daysInMonth z m := by
  unfold daysInMonth
  rw [if_neg hm, if_neg hm]

lemma daysInMonth_feb (y : Nat) : daysInMonth y 2 = if isLeap y then 29 else 28 := by
  unfold daysInMonth
  rw [if_pos rfl]

lemma isLeap_add_two {y : Nat} (h : isLeap y = true) : isLeap (y + 2) = false := by
  have h4 : y % 4 = 0 := by
    simp only [isLeap, Bool.or_eq_true, Bool.and_eq_true, beq_iff_eq,
      bne_iff_ne] at h
    rcases h with ⟨h1, -⟩ | h1
    · exact h1
    · omega
  simp only [isLeap, Bool.or_eq_false_iff, Bool.and_eq_false_iff,
    beq_eq_false_iff_ne]
  exact ⟨Or.inl (by omega), by omega⟩

/-- C8: `is_immune` returns false without a `last_ph_date`, and with one it
returns true exactly on days strictly before the two-year anniversary,
where an anniversary day that does not exist in the target month is clamped
to the last valid day of that month (`min` with the month length). -/
theorem C8_immunity (e : Employee) (day : Date) :
    (e.last_ph_date = none → e.is_immune day 2 = false) ∧
      (∀ lpd, e.last_ph_date = some lpd → lpd.valid →
        (e.is_immune day 2 = true ↔
          dlt day ⟨lpd.year + 2, lpd.month,
            min lpd.day (daysInMonth (lpd.year + 2) lpd.month)⟩)) := by
  constructor
  · intro h
    unfold Employee.is_immune
    rw [h]
  · intro lpd hl hv
    unfold Employee.is_immune
    rw [hl]
    dsimp only
    have hend : immunityEndDate lpd 2 =
        ⟨lpd.year + 2, lpd.month,
          min lpd.day (daysInMonth (lpd.year + 2) lpd.month)⟩ := by
      unfold immunityEndDate
      by_cases hle : lpd.day ≤ daysInMonth (lpd.year + 2) lpd.month
      · rw [if_pos hle]
        have : min lpd.day (daysInMonth (lpd.year + 2) lpd.month) = lpd.day := by
          omega
        rw [this]
      · rw [if_neg hle]
        obtain ⟨h1, h2, h3, h4⟩ := hv
        by_cases hm : lpd.month = 2
        · rw [hm] at hle h4 ⊢
          have hy : isLeap lpd.year = true := by
            by_contra hny
            rw [Bool.not_eq_true] at hny
            have ha : daysInMonth lpd.year 2 = 28 := by
              rw [daysInMonth_feb, if_neg (by rw [hny]; exact Bool.false_ne_true)]
            have hb : 28 ≤ daysInMonth (lpd.year + 2) 2 := by
              rw [daysInMonth_feb]
              split <;> omega
            omega
          have hy2 : isLeap (lpd.year + 2) = false := isLeap_add_two hy
          have hd1 : daysInMonth (lpd.year + 2) 2 = 28 := by
            rw [daysInMonth_feb, if_neg (by rw [hy2]; exact Bool.false_ne_true)]
          have h29 : daysInMonth lpd.year 2 = 29 := by
            rw [daysInMonth_feb, if_pos hy]
          rw [hd1]
          have hmin : min lpd.day 28 = 28 := by omega
          rw [hmin]
        · exfalso
          have := @daysInMonth_irrel lpd.year (lpd.year + 2) lpd.month hm
          omega
    rw [hend]
    exact decide_eq_true_iff

/-- C8 witness: an employee whose last holiday duty was the leap day
2024-02-29 is still immune on 2026-02-27 (the clamped anniversary is
2026-02-28). -/
theorem C8_immunity_witness :
    Employee.is_immune ⟨"A", EmployeeType.STANDARD, 0, [], [], some ⟨2024, 2, 29⟩⟩
        ⟨2026, 2, 27⟩ 2 = true :=
  ((C8_immunity ⟨"A", EmployeeType.STANDARD, 0, [], [], some ⟨2024, 2, 29⟩⟩
      ⟨2026, 2, 27⟩).2 ⟨2024, 2, 29⟩ rfl (by decide)).mpr (by decide)


lemma shiftsForDay_classification {phs : List Date} {d : Date} {s : Shift}
    (h : s ∈ getShiftsForDay phs d) :
    (d ∈ phs → s ∈ [Shift.PH_AM, Shift.PH_PM]) ∧
      (d ∉ phs → d.weekday ≥ 5 → s ∈ [Shift.WEEKEND_AM, Shift.WEEKEND_PM]) ∧
      (d ∉ phs → d.weekday < 5 → s = Shift.WEEKDAY_PM) := by
  unfold getShiftsForDay at h
  by_cases h1 : d ∈ phs
  · rw [if_pos h1] at h
    exact ⟨fun _ => h, fun hn => absurd h1 hn, fun hn => absurd h1 hn⟩
  · rw [if_neg h1] at h
    by_cases h2 : d.weekday ≥ 5
    · rw [if_pos h2] at h
      exact ⟨fun hp => absurd hp h1, fun _ _ => h,
        fun _ hlt => absurd h2 (by omega)⟩
    · rw [if_neg h2] at h
      simp only [List.mem_singleton] at h
      exact ⟨fun hp => absurd hp h1, fun _ hge => absurd hge h2, fun _ _ => h⟩

/-- C10: every Assignment variable pairs a date only with a shift from that
date's classified shift set — a holiday date only with PH shifts, a
non-holiday weekend date only with weekend shifts, a non-holiday weekday
only with `WEEKDAY_PM` — and every roster key is a variable key, so the
same holds for every roster row of any solution. -/
theorem C10_model_shape (inp : Input) :
    (∀ k ∈ varKeys inp,
      k.2.2 ∈ getShiftsForDay inp.public_holidays k.2.1 ∧
        (k.2.1 ∈ inp.public_holidays → k.2.2 ∈ [Shift.PH_AM, Shift.PH_PM]) ∧
        (k.2.1 ∉ inp.public_holidays → k.2.1.weekday ≥ 5 →
          k.2.2 ∈ [Shift.WEEKEND_AM, Shift.WEEKEND_PM]) ∧
        (k.2.1 ∉ inp.public_holidays → k.2.1.weekday < 5 →
          k.2.2 = Shift.WEEKDAY_PM)) ∧
      ∀ σ : Assignment, ∀ k ∈ rosterKeys inp σ, k ∈ varKeys inp := by
  constructor
  · rintro ⟨n, d, s⟩ hk
    have hs := shift_mem_of_varKeys hk
    exact ⟨hs, (shiftsForDay_classification hs).1,
      (shiftsForDay_classification hs).2.1,
      (shiftsForDay_classification hs).2.2⟩
  · intro σ k hk
    exact (rosterKeys_sub hk).1

/-- C10 witness: the shape property evaluated on a variable of the concrete
holiday input `cx2`. -/
theorem C10_model_shape_witness :
    Shift.PH_AM ∈ getShiftsForDay cx2.public_holidays jan1 :=
  (((C10_model_shape cx2).1 ("A", jan1, Shift.PH_AM) (by decide)).1)

lemma errors_inner_eq (inp : Input) (d : Date) (l : List Shift) :
    (l.filterMap fun s =>
        if slotVars inp d s = [] then some (errMsg d s) else none)
      = ((l.map fun s => (d, s)).filter fun p =>
          (slotVars inp p.1 p.2).isEmpty).map fun p => errMsg p.1 p.2 := by
  induction l with
  | nil => rfl
  | cons a t ih =>
    simp only [List.filterMap_cons, List.map_cons, List.filter_cons]
    by_cases hc : slotVars inp d a = []
    · rw [if_pos hc]
      have : (slotVars inp d a).isEmpty = true := List.isEmpty_iff.mpr hc
      simp only [this, if_true, List.map_cons, ih]
    · rw [if_neg hc]
      have : (slotVars inp d a).isEmpty = false := by
        rw [List.isEmpty_eq_false_iff_exists_mem]
        rcases List.exists_mem_of_ne_nil _ hc with ⟨x, hx⟩
        exact ⟨x, hx⟩
      simp only [this, if_false, ih]
      rfl

lemma coverageErrors_eq (inp : Input) :
    coverageErrors inp = ((requiredSlots inp).filter fun p =>
      (slotVars inp p.1 p.2).isEmpty).map fun p => errMsg p.1 p.2 := by
  unfold coverageErrors requiredSlots
  generalize inp.date_range = l
  induction l with
  | nil => rfl
  | cons a t ih =>
    simp only [List.flatMap_cons, List.filter_append, List.map_append]
    rw [errors_inner_eq, ih]

/-- C5: when at least one required slot has no eligible employee, `solve`
returns no roster and no summary; the error list has exactly one entry per
empty slot — all of them found in a single pass, each built by `errMsg`
from that slot's date and shift — and the result does not depend on the
Solving Service argument at all, i.e. the solver is never consulted. -/
theorem C5_structural_infeasibility (inp : Input)
    (h : ∃ p ∈ requiredSlots inp, slotVars inp p.1 p.2 = []) :
    (∀ st, solve inp st =
      ⟨none, none, ((requiredSlots inp).filter fun p =>
        (slotVars inp p.1 p.2).isEmpty).map fun p => errMsg p.1 p.2⟩) ∧
      ∀ st1 st2, solve inp st1 = solve inp st2 := by
  obtain ⟨p, hp, hpe⟩ := h
  have hne : coverageErrors inp ≠ [] := by
    rw [coverageErrors_eq]
    intro hc
    rw [List.map_eq_nil_iff] at hc
    have : p ∈ (requiredSlots inp).filter fun p =>
        (slotVars inp p.1 p.2).isEmpty :=
      List.mem_filter.mpr ⟨hp, List.isEmpty_iff.mpr hpe⟩
    rw [hc] at this
    cases this
  have hsolve : ∀ st, solve inp st = ⟨none, none, coverageErrors inp⟩ := by
    intro st
    unfold solve
    rw [if_pos hne]
  refine ⟨fun st => ?_, fun st1 st2 => by rw [hsolve st1, hsolve st2]⟩
  rw [hsolve st, coverageErrors_eq]

/-- C5 witness: on the input whose only employee is blacked out on the only
date, `solve` (here probed with the INFEASIBLE status, but the result is
status-independent) reports exactly the one empty slot. -/
theorem C5_witness :
    solve cx5 SolverStatus.INFEASIBLE =
      ⟨none, none, ((requiredSlots cx5).filter fun p =>
        (slotVars cx5 p.1 p.2).isEmpty).map fun p => errMsg p.1 p.2⟩ :=
  (C5_structural_infeasibility cx5
    ⟨(jan5, Shift.WEEKDAY_PM), by decide, by decide⟩).1 SolverStatus.INFEASIBLE


lemma mem_bidderVars {inp : Input} {d : Date} {s : Shift} {k : VarKey}
    (hk : k ∈ bidderVars inp d s) :
    ∃ e ∈ inp.employees, d ∈ e.ph_bids ∧ k = (e.name, d, s) ∧
      k ∈ varKeys inp := by
  unfold bidderVars at hk
  obtain ⟨e, he, rfl⟩ := List.mem_map.mp hk
  have h1 := List.mem_filter.mp he
  have h2 := List.mem_filter.mp h1.1
  exact ⟨e, h2.1, of_decide_eq_true h2.2, rfl, of_decide_eq_true h1.2⟩

/-- C1 (amended): for a holiday date of the range and a shift required that
day, if at least one bidder is eligible for the slot (has an Assignment
variable — the code only reserves slots for eligible bidders), then every
solution of the model assigns the slot to a bidder: some eligible bidder's
variable is true, and with unique employee names every true variable of
that slot is that bidder's. -/
theorem C1_bid_honoring {inp : Input} {σ : Assignment}
    (hnames : (inp.employees.map Employee.name).Nodup)
    (hfeas : feasible inp σ = true) {d : Date} {s : Shift}
    (hd : d ∈ inp.date_range) (hph : d ∈ inp.public_holidays)
    (hs : s ∈ getShiftsForDay inp.public_holidays d)
    (hbid : bidderVars inp d s ≠ []) :
    ∃ e ∈ inp.employees, d ∈ e.ph_bids ∧
      (e.name, d, s) ∈ rosterKeys inp σ ∧
      ∀ k ∈ rosterKeys inp σ, k.2.1 = d → k.2.2 = s → k.1 = e.name := by
  have hbs := bidding_slot (feasible_parts hfeas).2.2.1 hd hph hs hbid
  obtain ⟨bk, hbk, hbσ⟩ := exists_true_of_boolSum_eq_one hbs
  obtain ⟨e, he, hbids, rfl, hbkv⟩ := mem_bidderVars hbk
  refine ⟨e, he, hbids, mem_rosterKeys hbkv hbσ, ?_⟩
  rintro ⟨n, d2, s2⟩ hk2 hd2 hs2
  dsimp only at hd2 hs2
  subst hd2
  subst hs2
  obtain ⟨hk2v, hσ2⟩ := rosterKeys_sub hk2
  have hslot2 := mem_slotVars_of_varKeys hk2v
  have hslotb := mem_slotVars_of_varKeys hbkv
  have hcov := coverage_slot (feasible_parts hfeas).1 hd hs
    (fun hnil => by rw [hnil] at hslot2; cases hslot2)
  by_contra hne
  have h2 := @countP_two_le VarKey (slotVars inp d2 s2) (n, d2, s2)
    (e.name, d2, s2) (fun k => σ k) (slotVars_nodup hnames d2 s2) hslot2
    hslotb (fun hc => hne (congrArg Prod.fst hc)) hσ2 hbσ
  rw [boolSum_eq_countP] at hcov
  omega

/-- C1 witness: the amended bid-honoring theorem evaluated on a holiday
input with two eligible bidders and a feasible solution. -/
theorem C1_bid_honoring_witness :
    ("A", jan1, Shift.PH_AM) ∈ rosterKeys cxW sigmaW ∨
      ("D", jan1, Shift.PH_AM) ∈ rosterKeys cxW sigmaW := by
  obtain ⟨e, he, hbids, hmem, -⟩ :=
    @C1_bid_honoring cxW sigmaW (by decide) (by decide) jan1 Shift.PH_AM
      (by decide) (by decide) (by decide) (by decide)
  rcases List.mem_cons.mp he with rfl | he2
  · exact Or.inl hmem
  · rcases List.mem_cons.mp he2 with rfl | he3
    · exact Or.inr hmem
    · cases he3


/-- C1 counterexample: on `cx1` the sole bidder for the 2026-01-01 holiday
(employee A) is blacked out, hence ineligible and without any Assignment
variable, so no bidding constraint is emitted; `sigma1` satisfies every
model constraint and the coverage pre-check passes, yet its roster gives
PH AM to non-bidder B and PH PM to non-bidder C, and the bidder A appears
nowhere — refuting the claim that a bid is honored regardless of the
bidders' eligibility. -/
theorem C1_counterexample :
    feasible cx1 sigma1 = true ∧ coverageErrors cx1 = [] ∧
      jan1 ∈ cx1.public_holidays ∧ jan1 ∈ empAblk.ph_bids ∧
      cx1.employees.filter (fun e => jan1 ∈ e.ph_bids) = [empAblk] ∧
      rosterKeys cx1 sigma1 =
        [("B", jan1, Shift.PH_AM), ("C", jan1, Shift.PH_PM)] ∧
      (solve cx1 (SolverStatus.FEASIBLE sigma1)).roster =
        some (rosterRows cx1 sigma1) := by
  refine ⟨by decide, by decide, by decide, by decide, by decide, by decide, ?_⟩
  decide

/-- C2 (code bug): the spec's single-bidder scenario — input `cx2`: one
holiday date, exactly one non-immune, non-blacked-out (standard) bidder A
and another employee B.  The bidding constraints force A's variable to be
true for BOTH holiday shifts while one-shift-per-day allows at most one,
so the model admits no solution at all; under the Solving Service contract
`solve` therefore never returns a roster on this input and instead reports
the generic conflict message, contradicting the claimed behavior. -/
theorem C2_single_bidder_infeasible :
    (∀ σ : Assignment, feasible cx2 σ = false) ∧
      coverageErrors cx2 = [] ∧
      ∀ st, StatusOk cx2 st → (solve cx2 st).roster = none ∧
        (solve cx2 st).errors = [conflictMsg] := by
  have hinf : ∀ σ : Assignment, feasible cx2 σ = false := by
    intro σ
    by_contra hc
    rw [Bool.not_eq_false] at hc
    obtain ⟨-, -, hbid, hone⟩ := feasible_parts hc
    have hbAM : bidderVars cx2 jan1 Shift.PH_AM =
        [("A", jan1, Shift.PH_AM)] := by decide
    have hbPM : bidderVars cx2 jan1 Shift.PH_PM =
        [("A", jan1, Shift.PH_PM)] := by decide
    have h1 := @bidding_slot cx2 σ hbid jan1 Shift.PH_AM (by decide)
      (by decide) (by decide) (by decide)
    have h2 := @bidding_slot cx2 σ hbid jan1 Shift.PH_PM (by decide)
      (by decide) (by decide) (by decide)
    rw [hbAM] at h1
    rw [hbPM] at h2
    have hAM : σ ("A", jan1, Shift.PH_AM) = true := by
      cases hA : σ ("A", jan1, Shift.PH_AM) with
      | false => simp [boolSum, hA] at h1
      | true => rfl
    have hPM : σ ("A", jan1, Shift.PH_PM) = true := by
      cases hA : σ ("A", jan1, Shift.PH_PM) with
      | false => simp [boolSum, hA] at h2
      | true => rfl
    have h3 := @oneShift_slot cx2 σ hone empA jan1 (by decide) (by decide)
    have hst : shiftsToday cx2 empA jan1 =
        [("A", jan1, Shift.PH_AM), ("A", jan1, Shift.PH_PM)] := by decide
    rw [hst] at h3
    simp [boolSum, hAM, hPM] at h3
  refine ⟨hinf, by decide, ?_⟩
  intro st hok
  cases st with
  | OPTIMAL σ =>
    have hok2 : feasible cx2 σ = true := hok
    rw [hinf σ] at hok2
    cases hok2
  | FEASIBLE σ =>
    have hok2 : feasible cx2 σ = true := hok
    rw [hinf σ] at hok2
    cases hok2
  | INFEASIBLE => exact ⟨by decide, by decide⟩
  | TIMEOUT => exact ⟨by decide, by decide⟩

/-- C2 witness: the code-bug theorem evaluated at the INFEASIBLE solver
status, the only possible status for this model. -/
theorem C2_witness :
    (solve cx2 SolverStatus.INFEASIBLE).roster = none ∧
      (solve cx2 SolverStatus.INFEASIBLE).errors = [conflictMsg] :=
  C2_single_bidder_infeasible.2.2 SolverStatus.INFEASIBLE trivial


lemma enumName_inj (a b : Shift) : Shift.enumName a = Shift.enumName b ↔ a = b := by
  constructor
  · intro h
    cases a <;> cases b <;> first | rfl | (exfalso; exact absurd h (by decide))
  · intro h
    rw [h]

lemma roster_filter_length (inp : Input) (σ : Assignment) (d : Date) (s : Shift) :
    ((rosterRows inp σ).filter fun row =>
      decide (row.date = d) && decide (row.shift = Shift.enumName s)).length
      = (varKeys inp).countP fun k =>
          σ k && (decide (k.2.1 = d) && decide (k.2.2 = s)) := by
  rw [← List.countP_eq_length_filter]
  unfold rosterRows
  rw [List.countP_map]
  unfold rosterKeys
  rw [List.countP_filter]
  refine List.countP_congr ?_
  intro k hk
  simp only [Function.comp, Bool.and_eq_true, decide_eq_true_eq]
  constructor
  · rintro ⟨⟨h1, h2⟩, h3⟩
    exact ⟨h3, h1, (enumName_inj _ _).mp h2⟩
  · rintro ⟨h3, h1, h2⟩
    exact ⟨⟨h1, by rw [h2]⟩, h3⟩

/-- C6: whenever `solve` returns a roster (under the Solving Service
contract, with the spec's input invariants: unique employee names and a
duplicate-free date range), the returned error list is empty and for every
date of the range and every shift the classifier requires that day there
is exactly one roster row with that date and that shift. -/
theorem C6_coverage_completeness {inp : Input} {st : SolverStatus}
    {r : List RosterRow}
    (hnames : (inp.employees.map Employee.name).Nodup)
    (hrange : inp.date_range.Nodup)
    (hok : StatusOk inp st)
    (hr : (solve inp st).roster = some r) :
    (solve inp st).errors = [] ∧
      ∀ d ∈ inp.date_range, ∀ s ∈ getShiftsForDay inp.public_holidays d,
        (r.filter fun row =>
          decide (row.date = d) &&
            decide (row.shift = Shift.enumName s)).length = 1 := by
  obtain ⟨hcov, herrs, σ, hst, hrr⟩ := solve_success hr
  have hfeas : feasible inp σ = true := by
    rcases hst with rfl | rfl
    · exact hok
    · exact hok
  refine ⟨herrs, ?_⟩
  intro d hd s hs
  subst hrr
  rw [roster_filter_length, countP_varKeys_slot hnames hrange hd hs σ]
  exact coverage_slot (feasible_parts hfeas).1 hd hs
    (coverageErrors_nil_iff.mp hcov d hd s hs)

/-- C6 witness: coverage completeness evaluated on the two-weekday input
`cx7` with its feasible solution. -/
theorem C6_coverage_completeness_witness :
    ((rosterRows cx7 sigma7).filter fun row =>
      decide (row.date = jan5) &&
        decide (row.shift = Shift.enumName Shift.WEEKDAY_PM)).length = 1 :=
  (@C6_coverage_completeness cx7 (SolverStatus.FEASIBLE sigma7)
    (rosterRows cx7 sigma7) (by decide) (by decide)
    (show feasible cx7 sigma7 = true by decide) (by decide)).2
    jan5 (by decide) Shift.WEEKDAY_PM (by decide)


/-- C7: rest invariant.  For an ordered range of valid calendar dates (the
input contract of §6), in every solution of the model, an employee with a
PM-class roster assignment on a day has no roster assignment of any shift
on the next calendar day. -/
theorem C7_rest_invariant {inp : Input} {σ : Assignment}
    (hsorted : inp.date_range.Pairwise dlt)
    (hvalid : ∀ x ∈ inp.date_range, x.valid)
    (hfeas : feasible inp σ = true)
    {n : String} {d : Date} {s : Shift}
    (hrow : (n, d, s) ∈ rosterKeys inp σ) (hpm : s ∈ pmShiftList)
    (s2 : Shift) : (n, d.next, s2) ∉ rosterKeys inp σ := by
  intro hrow2
  obtain ⟨hk1, hσ1⟩ := rosterKeys_sub hrow
  obtain ⟨hk2, hσ2⟩ := rosterKeys_sub hrow2
  obtain ⟨hd1, hs1, e, he, hname, -⟩ := mem_varKeys.mp hk1
  have hd2 := date_mem_of_varKeys hk2
  have hk1e : (e.name, d, s) ∈ varKeys inp := by
    rw [hname]
    exact hk1
  have hk2e : (e.name, d.next, s2) ∈ varKeys inp := by
    rw [hname]
    exact hk2
  have hpmv := todayPmVar_eq hk1e hpm
  have hzip := zip_consecutive hsorted hvalid hd1 hd2
  have hmem2 := mem_shiftsToday hk2e
  have hne : shiftsToday inp e d.next ≠ [] := fun hnil => by
    rw [hnil] at hmem2
    cases hmem2
  have hrest := rest_pair (feasible_parts hfeas).2.1 he hzip hpmv hne
  have hσ1e : σ (e.name, d, s) = true := by
    rw [hname]
    exact hσ1
  have hσ2e : σ (e.name, d.next, s2) = true := by
    rw [hname]
    exact hσ2
  rw [hσ1e] at hrest
  simp only [if_true] at hrest
  have h0 : boolSum σ (shiftsToday inp e d.next) = 0 := by omega
  have := boolSum_eq_zero h0 _ hmem2
  rw [hσ2e] at this
  cases this

/-- C7 witness: on the two-weekday input `cx7`, employee B works the Monday
evening shift under `sigma7`, and indeed has no Tuesday assignment. -/
theorem C7_rest_invariant_witness :
    ("B", Date.next jan5, Shift.WEEKDAY_PM) ∉ rosterKeys cx7 sigma7 :=
  @C7_rest_invariant cx7 sigma7 (by decide) (by decide) (by decide)
    "B" jan5 Shift.WEEKDAY_PM (by decide) (by decide) Shift.WEEKDAY_PM


lemma varWeight_eq_spec {inp : Input} {k : VarKey} (hk : k ∈ varKeys inp) :
    varWeight inp.public_holidays k.2.1 k.2.2 = specShiftWeight k.2.2 := by
  obtain ⟨n, d, s⟩ := k
  have hs := shift_mem_of_varKeys hk
  unfold varWeight
  by_cases hph : d ∈ inp.public_holidays
  · rw [if_pos hph]
    have hcl := (shiftsForDay_classification hs).1 hph
    simp only [List.mem_cons, List.not_mem_nil, or_false] at hcl
    rcases hcl with rfl | rfl <;> rfl
  · rw [if_neg hph]
    cases s <;> rfl

/-- C9: the point expression the code builds for an employee equals the
spec's `ytd_points * 10 + Σ(var · weight)` with weekday weight 10 and
weekend/holiday weight 15; and for any pair of bounded integers admitted
by the fairness constraints (each one ≥, resp. ≤, every employee's
expression, within [0, 100000]), the minimized objective `upper − lower`
dominates the spread between any two employees' expressions. -/
theorem C9_fairness_objective (inp : Input) (σ : Assignment) (e : Employee) :
    employeeTotal inp σ e = employeeTotalSpec inp σ e ∧
      ∀ maxPts minPts : Int, fairnessOk inp σ maxPts minPts →
        ∀ e1 ∈ inp.employees, ∀ e2 ∈ inp.employees,
          employeeTotal inp σ e1 - employeeTotal inp σ e2 ≤
            objectiveValue maxPts minPts := by
  constructor
  · unfold employeeTotal employeeTotalSpec
    congr 1
    refine congrArg List.sum (List.map_congr_left ?_)
    intro k hk
    by_cases hc : k.1 = e.name ∧ σ k = true
    · rw [if_pos hc, if_pos hc]
      rw [varWeight_eq_spec hk]
    · rw [if_neg hc, if_neg hc]
  · rintro maxPts minPts ⟨-, -, -, -, hb⟩ e1 he1 e2 he2
    have h1 := (hb e1 he1).1
    have h2 := (hb e2 he2).2
    unfold objectiveValue
    omega

/-- C9 witness: the fairness theorem evaluated on the concrete input `cx7`
with its solution, using the tight bounds 10/10 (both employee totals are
exactly 10 there). -/
theorem C9_fairness_objective_witness :
    employeeTotal cx7 sigma7 empB = employeeTotalSpec cx7 sigma7 empB ∧
      employeeTotal cx7 sigma7 empB - employeeTotal cx7 sigma7 empC ≤
        objectiveValue 10 10 := by
  refine ⟨(C9_fairness_objective cx7 sigma7 empB).1, ?_⟩
  refine (C9_fairness_objective cx7 sigma7 empB).2 10 10 ?_ empB (by decide)
    empC (by decide)
  refine ⟨by decide, by decide, by decide, by decide, ?_⟩
  intro e he
  rcases List.mem_cons.mp he with rfl | he2
  · exact ⟨by decide, by decide⟩
  · rcases List.mem_cons.mp he2 with rfl | he3
    · exact ⟨by decide, by decide⟩
    · cases he3

end Scheduler
